import Mathlib

/-!
Shallow embedding of the roughness-penalty-matrix subsystem of
`skfda/misc/regularization/_linear_diff_op_regularization.py`.

Real numbers stand for the floating-point values of the source.  The
`rfft`-based polynomial multiplication of the monomial path is embedded as the
convolution it computes (in exact arithmetic the rfft/irfft round trip is
exactly the convolution the source comment describes).  The external
capabilities the source consumes but whose code is not part of these sources
(the basis classes of `skfda.representation.basis`, the operator class of
`skfda.misc._lfd`, the scipy `PPoly.from_spline` representation and the
adaptive quadrature `scipy.integrate.quad_vec` of the fallback) are modelled
from the spec as function-valued parameters and as the mathematical interval
integral.
-/

open scoped Classical

namespace Skfda

/-- A real matrix together with its size; entries are a total function on
pairs of naturals, and every construction below returns symmetric padding
(zeros) at indices at or beyond the size. -/
structure Mat where
  size : ℕ
  entry : ℕ → ℕ → ℝ

/-- Modelled from the spec: the differential operator descriptor (the class
`LinearDifferentialOperator` of `skfda.misc._lfd`, whose code is not part of
these sources).  `constant_weights` is the query "constant weights or not
applicable"; `apply` is the action f ↦ Lf consumed by the numerical
fallback. -/
structure LinearDifferentialOperator where
  constant_weights : Option (List ℝ)
  apply : (ℝ → ℝ) → ℝ → ℝ

/-- The regularization configuration wrapping one differential operator
(`LinearDifferentialOperatorRegularization`). -/
structure Regularization where
  linear_diff_op : LinearDifferentialOperator

/-- Modelled from the spec: the action Lf = sum of w_k f^(k) of a
constant-coefficient operator, used to build concrete operators whose
`apply` field agrees with their constant weights. -/
noncomputable def applyConstantOp (w : List ℝ) (f : ℝ → ℝ) (x : ℝ) : ℝ :=
  ∑ k ∈ Finset.range w.length, w.getD k 0 * iteratedDeriv k f x

/-- A regularization whose operator has the given constant weights. -/
noncomputable def constOpReg (w : List ℝ) : Regularization :=
  ⟨⟨some w, applyConstantOp w⟩⟩

/-! Numpy polynomial machinery on 1-D coefficient arrays in decreasing
exponent order, as used by the B-spline path (`polyder`, `polymul`,
`polyint`, `polyval`, `trim_zeros`). -/

/-- numpy `polyval` (Horner evaluation over decreasing coefficients). -/
noncomputable def polyval (p : List ℝ) (x : ℝ) : ℝ :=
  p.foldl (fun acc c => acc * x + c) 0

/-- numpy `trim_zeros(p, f)`: drop leading zero coefficients. -/
noncomputable def trim_zeros (p : List ℝ) : List ℝ :=
  p.dropWhile (fun c => decide (c = 0))

/-- One step of numpy `polyder` on decreasing-order coefficients: drop the
last coefficient and multiply position k by (len(p) - 1 - k). -/
noncomputable def polyder1 (p : List ℝ) : List ℝ :=
  (List.range (p.length - 1)).map (fun k => p.getD k 0 * ((p.length - 1 - k : ℕ) : ℝ))

/-- numpy `polyder(p, m)`. -/
noncomputable def polyder (p : List ℝ) (m : ℕ) : List ℝ :=
  polyder1^[m] p

/-- numpy `polymul`: the convolution, of length len(a) + len(b) - 1. -/
noncomputable def polymul (a b : List ℝ) : List ℝ :=
  (List.range (a.length + b.length - 1)).map (fun p =>
    ∑ q ∈ Finset.range (p + 1), a.getD q 0 * b.getD (p - q) 0)

/-- numpy `polyint`: position k is divided by (len(p) - k) and a zero
coefficient is appended. -/
noncomputable def polyint (p : List ℝ) : List ℝ :=
  (List.range p.length).map (fun k => p.getD k 0 / ((p.length - k : ℕ) : ℝ)) ++ [0]

/-- Modelled from the spec: the Fourier basis functions of
`skfda.representation.basis.Fourier` (code not part of these sources): the
family {1, sin(ωt), cos(ωt), ...} with ω = 2π/period, normalized so that the
family is orthonormal when the period equals the domain length, as the spec
and the source comments state. -/
noncomputable def fourierFun (period : ℝ) (i : ℕ) : ℝ → ℝ :=
  if i = 0 then fun _ => Real.sqrt (1 / period)
  else if i % 2 = 1 then
    fun t => Real.sqrt (2 / period) * Real.sin (((i + 1) / 2 : ℕ) * (2 * Real.pi / period) * t)
  else
    fun t => Real.sqrt (2 / period) * Real.cos ((i / 2 : ℕ) * (2 * Real.pi / period) * t)

/-- Modelled from the spec: the basis variants the dispatch layer
distinguishes.  Each carries its dimension and one-dimensional domain range;
variants whose evaluation code lives outside these sources (B-spline
derivative evaluation, the scipy piecewise-polynomial representation, and the
basis functions consumed by the fallback) carry those capabilities as
fields.  `other` stands for a basis variant with no registered optimizer. -/
inductive Basis where
  | constant (a b : ℝ)
  | monomial (a b : ℝ) (n_basis : ℕ)
  | fourier (a b : ℝ) (n_basis : ℕ) (period : ℝ)
  | bspline (a b : ℝ) (n_basis order : ℕ) (knots : List ℝ)
      (derivEval : ℕ → ℝ → ℕ → ℝ) (ppoly : ℕ → ℕ → List ℝ) (funs : ℕ → ℝ → ℝ)
  | other (a b : ℝ) (n_basis : ℕ) (funs : ℕ → ℝ → ℝ)

/-- Number of basis functions. -/
def Basis.n_basis : Basis → ℕ
  | Basis.constant _ _ => 1
  | Basis.monomial _ _ n => n
  | Basis.fourier _ _ n _ => n
  | Basis.bspline _ _ n _ _ _ _ _ => n
  | Basis.other _ _ n _ => n

/-- Left end of the (single) domain range. -/
def Basis.domain_left : Basis → ℝ
  | Basis.constant a _ => a
  | Basis.monomial a _ _ => a
  | Basis.fourier a _ _ _ => a
  | Basis.bspline a _ _ _ _ _ _ _ => a
  | Basis.other a _ _ _ => a

/-- Right end of the (single) domain range. -/
def Basis.domain_right : Basis → ℝ
  | Basis.constant _ b => b
  | Basis.monomial _ b _ => b
  | Basis.fourier _ b _ _ => b
  | Basis.bspline _ b _ _ _ _ _ _ => b
  | Basis.other _ b _ _ => b

/-- The basis functions, as evaluated by the (external) basis classes:
the constant basis is the function 1, the monomial basis is x^i, the Fourier
basis is the normalized trigonometric family, and the B-spline and unknown
variants carry their functions as a capability. -/
noncomputable def Basis.funs : Basis → ℕ → ℝ → ℝ
  | Basis.constant _ _ => fun _ _ => 1
  | Basis.monomial _ _ _ => fun i x => x ^ i
  | Basis.fourier _ _ _ period => fourierFun period
  | Basis.bspline _ _ _ _ _ _ _ f => f
  | Basis.other _ _ _ f => f

/-- The integrand of `penalty_matrix_numerical` for the pair (i, j):
the product of the two applied operators at x (`cross_product`). -/
noncomputable def cross_product (reg : Regularization) (basis : Basis) (i j : ℕ) (x : ℝ) : ℝ :=
  reg.linear_diff_op.apply (basis.funs i) x * reg.linear_diff_op.apply (basis.funs j) x

/-- Embedding of `penalty_matrix_numerical`: the generic fallback.  The upper triangle is
the integral of `cross_product` over the domain range (the source computes it
with `scipy.integrate.quad_vec`, modelled as the interval integral) and the
lower triangle is copied from it. -/
noncomputable def penalty_matrix_numerical (reg : Regularization) (basis : Basis) : Mat :=
  ⟨basis.n_basis, fun i j =>
    if i ≤ j then
      ∫ x in basis.domain_left..basis.domain_right, cross_product reg basis i j x
    else
      ∫ x in basis.domain_left..basis.domain_right, cross_product reg basis j i x⟩

/-- Embedding of `constant_penalty_matrix_optimized`: the 1×1 matrix
[[coefs[0]^2 * (b - a)]] when the operator has constant weights. -/
noncomputable def constant_penalty_matrix_optimized (a b : ℝ) (reg : Regularization) :
    Option Mat :=
  match reg.linear_diff_op.constant_weights with
  | none => none
  | some coefs =>
      some ⟨1, fun i j => if i = 0 ∧ j = 0 then coefs.getD 0 0 ^ 2 * (b - a) else 0⟩

/-- The falling-factorial coefficient i·(i-1)·...·(i-d+1) built by the
cumprod over the linspace rows of
`_monomial_evaluate_constant_linear_diff_op` (the prepended row of ones is
the empty product d = 0). -/
noncomputable def fallingCoef (i d : ℕ) : ℝ :=
  ∏ e ∈ Finset.range d, ((i : ℝ) - (e : ℝ))

/-- Row i of the `polynomials` matrix built by
`_monomial_evaluate_constant_linear_diff_op`: n coefficients in decreasing
exponent order, position p holding the coefficient of x^(n-1-p).  The source
builds it by the cumprod/resize/shift sequence: the resize to n×n keeps
exactly the derivative orders d < n (zero-padding the missing ones, which is
what `List.getD` with default 0 gives), and the tril shift writes the
weighted coefficient of derivative d of row i to column n-1-(i-d) through
Python negative indexing, i.e. position p receives derivative order
d = i - (n-1-p) whenever n-1-p ≤ i. -/
noncomputable def monomial_polynomials (n : ℕ) (w : List ℝ) (i p : ℕ) : ℝ :=
  if p < n ∧ n - 1 - p ≤ i then
    w.getD (i - (n - 1 - p)) 0 * fallingCoef i (i - (n - 1 - p))
  else 0

/-- Position p of the product of rows i and j of the polynomial matrix: the
convolution of length 2n-1 that the source computes through
`rfft`/`irfft`. -/
noncomputable def monomial_integrand_raw (n : ℕ) (w : List ℝ) (i j p : ℕ) : ℝ :=
  ∑ q ∈ Finset.range (p + 1),
    monomial_polynomials n w i q * monomial_polynomials n w j (p - q)

/-- Position p of `integrand` after the division by
`np.arange(2n-1, 0, -1)`: the coefficient at position p is divided by
2n-1-p.  At the padding position p = 2n-1 the raw coefficient is 0 and the
value is the appended zero of the source `np.pad`. -/
noncomputable def monomial_integrand (n : ℕ) (w : List ℝ) (i j p : ℕ) : ℝ :=
  monomial_integrand_raw n w i j p / ((2 * n - 1 - p : ℕ) : ℝ)

/-- The padded integrand row for the pair (i, j) as a coefficient list of
length 2n (the antiderivative polynomial, decreasing exponents). -/
noncomputable def monomial_integrand_list (n : ℕ) (w : List ℝ) (i j : ℕ) : List ℝ :=
  (List.range (2 * n)).map (fun p => monomial_integrand n w i j p)

/-- The definite integral for the pair (i, j): `np.polyval` of the padded
integrand at the right end of the domain minus its value at the left end
(Barrow rule). -/
noncomputable def monomial_integral (a b : ℝ) (n : ℕ) (w : List ℝ) (i j : ℕ) : ℝ :=
  polyval (monomial_integrand_list n w i j) b - polyval (monomial_integrand_list n w i j) a

/-- Embedding of `monomial_penalty_matrix_optimized`: upper triangle from
`monomial_integral`, lower triangle copied from the upper. -/
noncomputable def monomial_penalty_matrix_optimized (a b : ℝ) (n : ℕ)
    (reg : Regularization) : Option Mat :=
  match reg.linear_diff_op.constant_weights with
  | none => none
  | some w =>
      some ⟨n, fun i j =>
        if i < n ∧ j < n then
          if i ≤ j then monomial_integral a b n w i j
          else monomial_integral a b n w j i
        else 0⟩

/-- The sign pattern `signs = [1, 1, -1, -1]` tiled over derivative
orders. -/
noncomputable def fourier_signs (k : ℕ) : ℝ :=
  if k % 4 = 0 ∨ k % 4 = 1 then 1 else -1

/-- Phase values `phases[k] = (k+1) * 2π / period` (0-based k; the source uses
`np.arange(1, (n_basis - 1) // 2 + 1)`). -/
noncomputable def fourier_phase (period : ℝ) (k : ℕ) : ℝ :=
  (k + 1) * (2 * Real.pi / period)

/-- One of the four coefficient sums of the Fourier path: the columns of the
Vandermonde matrix of `phases[k]` of the given parity, times the weights and
the sign pattern shifted by `shift` (shift 0 gives `signs_odd`, shift 1
gives `signs_even`). -/
noncomputable def fourier_lin_coef (period : ℝ) (w : List ℝ) (shift parity k : ℕ) : ℝ :=
  ∑ d ∈ (Finset.range w.length).filter (fun d => d % 2 = parity),
    fourier_signs (d + shift) * (fourier_phase period k ^ d * w.getD d 0)

/-- Position m of `main_diag` (the interleaving of `main_diag_odd` and
`main_diag_even`): for a sine element (even m) the squared sums with the
`signs_odd` pattern, for a cosine element (odd m) those with the
`signs_even` pattern, each at phase index m / 2. -/
noncomputable def fourier_main_diag (period : ℝ) (w : List ℝ) (m : ℕ) : ℝ :=
  if m % 2 = 0 then
    fourier_lin_coef period w 0 0 (m / 2) ^ 2 + fourier_lin_coef period w 0 1 (m / 2) ^ 2
  else
    fourier_lin_coef period w 1 1 (m / 2) ^ 2 + fourier_lin_coef period w 1 0 (m / 2) ^ 2

/-- Embedding of `_fourier_penalty_matrix_optimized_orthonormal`: the diagonal matrix of
`main_diag` padded with a leading row and column for the constant element,
whose (0,0) entry is set to weights[0]^2.  Its size is
2·((n_basis - 1) / 2) + 1 (the number of phases is (n_basis - 1) / 2, two
diagonal entries per phase, plus the constant). -/
noncomputable def _fourier_penalty_matrix_optimized_orthonormal
    (n_basis : ℕ) (period : ℝ) (w : List ℝ) : Mat :=
  ⟨2 * ((n_basis - 1) / 2) + 1, fun i j =>
    if i = 0 ∧ j = 0 then w.getD 0 0 ^ 2
    else if i = j ∧ i - 1 < 2 * ((n_basis - 1) / 2) then fourier_main_diag period w (i - 1)
    else 0⟩

/-- Embedding of `fourier_penalty_matrix_optimized`: declines when the weights are not
constant or when the period differs from the domain length, and otherwise
returns the orthonormal closed form. -/
noncomputable def fourier_penalty_matrix_optimized (a b : ℝ) (n_basis : ℕ) (period : ℝ)
    (reg : Regularization) : Option Mat :=
  match reg.linear_diff_op.constant_weights with
  | none => none
  | some w =>
      if period = b - a then some (_fourier_penalty_matrix_optimized_orthonormal n_basis period w)
      else none

/-- The indices of the nonzero weights that are below the spline order
(`np.flatnonzero(coefs)` filtered by `nonzero < basis.order`). -/
noncomputable def bspline_nonzero (w : List ℝ) (order : ℕ) : List ℕ :=
  (List.range w.length).filter (fun k => decide (w.getD k 0 ≠ 0 ∧ k < order))

/-- One interval contribution of the general B-spline case for the pair
(i, j): the local polynomials are trimmed of leading zeros, the pair is
skipped when either trimmed polynomial does not survive the d-th derivative,
and otherwise the indefinite integral of the product of the d-th derivatives
is evaluated between the interval ends translated to local coordinates. -/
noncomputable def bspline_interval_contrib (knots : List ℝ) (ppoly : ℕ → ℕ → List ℝ)
    (d interval i j : ℕ) : ℝ :=
  let poly_i := trim_zeros (ppoly i interval)
  if poly_i.length ≤ d then 0
  else
    let poly_j := trim_zeros (ppoly j interval)
    if poly_j.length ≤ d then 0
    else
      let integral := polyint (polymul (polyder poly_i d) (polyder poly_j d))
      polyval integral (knots.getD (interval + 1) 0 - knots.getD interval 0) -
        polyval integral 0

/-- Entry (i, j) accumulated by the interval loop of the general B-spline
case (in this branch every knot gap is nonzero, so the number of
non-degenerate intervals of the evaluation knots equals
`knots.length - 1`). -/
noncomputable def bspline_general_entry (knots : List ℝ) (ppoly : ℕ → ℕ → List ℝ)
    (d i j : ℕ) : ℝ :=
  ∑ interval ∈ Finset.range (knots.length - 1),
    bspline_interval_contrib knots ppoly d interval i j

/-- Embedding of `bspline_penalty_matrix_optimized`: filters the nonzero weights below
the spline order; returns the zero matrix when none survive, declines when
more than one survives, uses the piecewise-constant product formula
`constants.T @ diag(knots_intervals) @ constants` when the surviving
derivative order is order - 1, declines when a knot interval has zero
length, and otherwise accumulates the general entries in the upper triangle
and mirrors them. -/
noncomputable def bspline_penalty_matrix_optimized (n_basis order : ℕ) (knots : List ℝ)
    (derivEval : ℕ → ℝ → ℕ → ℝ) (ppoly : ℕ → ℕ → List ℝ)
    (reg : Regularization) : Option Mat :=
  match reg.linear_diff_op.constant_weights with
  | none => none
  | some coefs =>
      let nonzero := bspline_nonzero coefs order
      if nonzero.length = 0 then some ⟨n_basis, fun _ _ => 0⟩
      else if nonzero.length ≠ 1 then none
      else
        let derivative_degree := nonzero.headD 0
        if derivative_degree = order - 1 then
          some ⟨n_basis, fun i j =>
            ∑ k ∈ Finset.range (knots.length - 1),
              derivEval derivative_degree ((knots.getD (k + 1) 0 + knots.getD k 0) / 2) i *
                (knots.getD (k + 1) 0 - knots.getD k 0) *
                derivEval derivative_degree ((knots.getD (k + 1) 0 + knots.getD k 0) / 2) j⟩
        else if ∃ k, k + 1 < knots.length ∧ knots.getD (k + 1) 0 - knots.getD k 0 = 0 then
          none
        else
          some ⟨n_basis, fun i j =>
            if i ≤ j then bspline_general_entry knots ppoly derivative_degree i j
            else bspline_general_entry knots ppoly derivative_degree j i⟩

/-- The singledispatch `penalty_matrix_optimized`: routes to the optimizer
registered for the basis variant, and returns the not-applicable sentinel
(here `none`, standing for `NotImplemented`) for a variant with no
registered optimizer. -/
noncomputable def penalty_matrix_optimized (basis : Basis) (reg : Regularization) :
    Option Mat :=
  match basis with
  | Basis.constant a b => constant_penalty_matrix_optimized a b reg
  | Basis.monomial a b n => monomial_penalty_matrix_optimized a b n reg
  | Basis.fourier a b n period => fourier_penalty_matrix_optimized a b n period reg
  | Basis.bspline _ _ n order knots derivEval ppoly _ =>
      bspline_penalty_matrix_optimized n order knots derivEval ppoly reg
  | Basis.other _ _ _ _ => none

/-- Embedding of `LinearDifferentialOperatorRegularization.penalty_matrix`: the optimized
result when the optimizer produced one, the numerical fallback when it
returned the sentinel. -/
noncomputable def penalty_matrix (basis : Basis) (reg : Regularization) : Mat :=
  match penalty_matrix_optimized basis reg with
  | none => penalty_matrix_numerical reg basis
  | some matrix => matrix

/-! Binary64 model of the maximal-derivative product path.

The embedding above is exact-real, which idealizes away the float64
rounding the source actually runs under.  The bit-for-bit part of the
symmetry question cannot be settled in that idealization: for the paths
that copy the lower triangle from the upper it holds trivially, but the
B-spline maximal-derivative path computes both triangles independently as
the product constants.T @ diag(knots_intervals) @ constants, so its
bit-level behavior needs the rounding modelled explicitly.  The following
defines IEEE-754 binary64 round-to-nearest (ties to even, normal range)
and the binary64 semantics of that product for a single knot interval. -/

/-- Round a rational to the nearest integer, ties to even (the IEEE-754
default rounding direction). -/
def roundEven (m : ℚ) : ℤ :=
  if m - ⌊m⌋ < 1 / 2 then ⌊m⌋
  else if 1 / 2 < m - ⌊m⌋ then ⌊m⌋ + 1
  else if ⌊m⌋ % 2 = 0 then ⌊m⌋ else ⌊m⌋ + 1

/-- IEEE-754 binary64 rounding of a positive rational in the normal range:
x is rounded to the nearest multiple of 2 ^ (e - 52), ties to even, where e
is the binade exponent of x (the one with 2 ^ e ≤ x < 2 ^ (e + 1)). -/
def fl64pos (x : ℚ) : ℚ :=
  (2 : ℚ) ^ (Int.log 2 x - 52) * (roundEven (x / (2 : ℚ) ^ (Int.log 2 x - 52)) : ℤ)

/-- IEEE-754 binary64 rounding (normal range), extended to zero and to
negative values by sign symmetry. -/
def fl64 (x : ℚ) : ℚ :=
  if x = 0 then 0 else if 0 < x then fl64pos x else -fl64pos (-x)

/-- Entry (i, j) of the maximal-derivative product
constants.T @ diag(knots_intervals) @ constants as numpy computes it in
binary64 over a single knot interval of length len: the left dgemm rounds
constants[0][i] * len and the outer dgemm rounds that result times
constants[0][j].  With one interval each dgemm sum has a single nonzero
term (the remaining additions of 0.0 are exact), so entries (i, j) and
(j, i) are exactly the differently associated rounded products
fl(fl(c_i * len) * c_j) and fl(fl(c_j * len) * c_i); nothing is copied
between the two triangles. -/
def bspline_maximal_fp_entry (c : ℕ → ℚ) (len : ℚ) (i j : ℕ) : ℚ :=
  fl64 (fl64 (c i * len) * c j)

/-! Helper lemmas. -/

/-- The binade exponent of x determines Int.log 2 x. -/
theorem int_log_eq_of_mem (x : ℚ) (e : ℤ) (hx : 0 < x)
    (h1 : (2 : ℚ) ^ e ≤ x) (h2 : x < (2 : ℚ) ^ (e + 1)) : Int.log 2 x = e := by
  have hb : 1 < 2 := one_lt_two
  have hc : ((2 : ℕ) : ℚ) = (2 : ℚ) := by norm_num
  have hle : e ≤ Int.log 2 x := by
    rw [← Int.zpow_le_iff_le_log hb hx, hc]
    exact h1
  have hlt : Int.log 2 x < e + 1 := by
    rw [← Int.lt_zpow_iff_log_lt hb hx, hc]
    exact h2
  omega

/-- Evaluation rule for `fl64` on a positive value with known binade. -/
theorem fl64_eval (x y : ℚ) (e : ℤ) (hx : 0 < x)
    (h1 : (2 : ℚ) ^ e ≤ x) (h2 : x < (2 : ℚ) ^ (e + 1))
    (hy : (2 : ℚ) ^ (e - 52) * (roundEven (x / (2 : ℚ) ^ (e - 52)) : ℤ) = y) : fl64 x = y := by
  rw [fl64, if_neg (ne_of_gt hx), if_pos hx, fl64pos, int_log_eq_of_mem x e hx h1 h2, hy]

/-- A matrix entry built as "upper triangle, mirrored" is symmetric. -/
theorem mirror_entry_symm (F : ℕ → ℕ → ℝ) (i j : ℕ) :
    (if i ≤ j then F i j else F j i) = if j ≤ i then F j i else F i j := by
  rcases le_or_lt i j with h | h
  · rcases le_or_lt j i with h2 | h2
    · have hij : i = j := le_antisymm h h2
      subst hij; simp
    · simp [h, not_le.mpr h2]
  · simp [not_le.mpr h, h.le]

/-- The numerical fallback is symmetric: the lower triangle is a copy of the
computed upper triangle. -/
theorem penalty_matrix_numerical_symm (reg : Regularization) (basis : Basis) (i j : ℕ) :
    (penalty_matrix_numerical reg basis).entry i j =
      (penalty_matrix_numerical reg basis).entry j i := by
  simp only [penalty_matrix_numerical]
  exact mirror_entry_symm (fun i j =>
    ∫ x in basis.domain_left..basis.domain_right, cross_product reg basis i j x) i j

/-- The constant-basis optimizer returns a symmetric matrix. -/
theorem constant_opt_symm (a b : ℝ) (reg : Regularization) (M : Mat)
    (hM : constant_penalty_matrix_optimized a b reg = some M) (i j : ℕ) :
    M.entry i j = M.entry j i := by
  unfold constant_penalty_matrix_optimized at hM
  cases hw : reg.linear_diff_op.constant_weights with
  | none => rw [hw] at hM; cases hM
  | some coefs =>
      rw [hw] at hM
      have h := Option.some.inj hM
      subst h
      by_cases hij : i = 0 ∧ j = 0
      · simp [hij.1, hij.2]
      · have hji : ¬(j = 0 ∧ i = 0) := fun h => hij ⟨h.2, h.1⟩
        simp [hij, hji]

/-- The monomial optimizer returns a symmetric matrix: the lower triangle is
a copy of the computed upper triangle. -/
theorem monomial_opt_symm (a b : ℝ) (n : ℕ) (reg : Regularization) (M : Mat)
    (hM : monomial_penalty_matrix_optimized a b n reg = some M) (i j : ℕ) :
    M.entry i j = M.entry j i := by
  unfold monomial_penalty_matrix_optimized at hM
  cases hw : reg.linear_diff_op.constant_weights with
  | none => rw [hw] at hM; cases hM
  | some w =>
      rw [hw] at hM
      have h := Option.some.inj hM
      subst h
      by_cases hr : i < n ∧ j < n
      · have hr2 : j < n ∧ i < n := ⟨hr.2, hr.1⟩
        simp only [hr, hr2, if_pos]
        exact mirror_entry_symm (fun i j => monomial_integral a b n w i j) i j
      · have hr2 : ¬(j < n ∧ i < n) := fun h => hr ⟨h.2, h.1⟩
        simp [hr, hr2]

/-- The Fourier optimizer returns a symmetric (diagonal) matrix. -/
theorem fourier_opt_symm (a b : ℝ) (n : ℕ) (period : ℝ) (reg : Regularization) (M : Mat)
    (hM : fourier_penalty_matrix_optimized a b n period reg = some M) (i j : ℕ) :
    M.entry i j = M.entry j i := by
  unfold fourier_penalty_matrix_optimized at hM
  cases hw : reg.linear_diff_op.constant_weights with
  | none => rw [hw] at hM; cases hM
  | some w =>
      simp only [hw] at hM
      by_cases hp : period = b - a
      · rw [if_pos hp] at hM
        have h := Option.some.inj hM
        subst h
        by_cases hij : i = j
        · subst hij; rfl
        · have h1 : ¬(i = 0 ∧ j = 0) := fun h => hij (h.1.trans h.2.symm)
          have h2 : ¬(j = 0 ∧ i = 0) := fun h => hij (h.2.trans h.1.symm)
          have h3 : ¬(i = j ∧ i - 1 < 2 * ((n - 1) / 2)) := fun h => hij h.1
          have h4 : ¬(j = i ∧ j - 1 < 2 * ((n - 1) / 2)) := fun h => hij h.1.symm
          simp only [_fourier_penalty_matrix_optimized_orthonormal]
          rw [if_neg h1, if_neg h2, if_neg h3, if_neg h4]
      · rw [if_neg hp] at hM; cases hM

/-- The B-spline optimizer returns a symmetric matrix in each of its three
result branches: the zero matrix, the maximal-derivative product
`constants.T @ diag(knots_intervals) @ constants` (symmetric because real
multiplication commutes), and the general accumulation whose lower triangle
is a copy of the upper. -/
theorem bspline_opt_symm (n order : ℕ) (knots : List ℝ) (derivEval : ℕ → ℝ → ℕ → ℝ)
    (ppoly : ℕ → ℕ → List ℝ) (reg : Regularization) (M : Mat)
    (hM : bspline_penalty_matrix_optimized n order knots derivEval ppoly reg = some M)
    (i j : ℕ) : M.entry i j = M.entry j i := by
  unfold bspline_penalty_matrix_optimized at hM
  cases hw : reg.linear_diff_op.constant_weights with
  | none => rw [hw] at hM; cases hM
  | some coefs =>
      simp only [hw] at hM
      by_cases h0 : (bspline_nonzero coefs order).length = 0
      · rw [if_pos h0] at hM
        have h := Option.some.inj hM
        subst h; rfl
      · rw [if_neg h0] at hM
        by_cases h1 : (bspline_nonzero coefs order).length ≠ 1
        · rw [if_pos h1] at hM; cases hM
        · rw [if_neg h1] at hM
          by_cases h2 : (bspline_nonzero coefs order).headD 0 = order - 1
          · rw [if_pos h2] at hM
            have h := Option.some.inj hM
            subst h
            dsimp only
            exact Finset.sum_congr rfl (fun k _ => by ring)
          · rw [if_neg h2] at hM
            by_cases h3 : ∃ k, k + 1 < knots.length ∧
                knots.getD (k + 1) 0 - knots.getD k 0 = 0
            · rw [if_pos h3] at hM; cases hM
            · rw [if_neg h3] at hM
              have h := Option.some.inj hM
              subst h
              exact mirror_entry_symm (fun i j =>
                bspline_general_entry knots ppoly
                  ((bspline_nonzero coefs order).headD 0) i j) i j

/-- Every matrix produced by the optimized dispatch is symmetric. -/
theorem penalty_matrix_optimized_symm (basis : Basis) (reg : Regularization) (M : Mat)
    (hM : penalty_matrix_optimized basis reg = some M) (i j : ℕ) :
    M.entry i j = M.entry j i := by
  cases basis with
  | constant a b => exact constant_opt_symm a b reg M hM i j
  | monomial a b n => exact monomial_opt_symm a b n reg M hM i j
  | fourier a b n period => exact fourier_opt_symm a b n period reg M hM i j
  | bspline a b n order knots derivEval ppoly funs =>
      exact bspline_opt_symm n order knots derivEval ppoly reg M hM i j
  | other a b n funs => cases hM

/-- C1 counterexample: it is not true that every computation path copies
the lower triangle from the computed upper triangle so that R is
bit-for-bit symmetric.  The B-spline maximal-derivative path recomputes
both triangles as the product constants.T @ diag @ constants, and under
the binary64 arithmetic the source runs this product in, the two triangles
can disagree bitwise: with a single knot interval of length 1 + 2^-52 and
maximal-derivative midpoint values c_0 = 1 + 2^-52 and c_1 = 3, the
product rounds entry (0, 1) to 3 + 6*2^-52 but entry (1, 0) to
3 + 8*2^-52 — the same real product, associated the two ways the matrix
product associates it, rounds to different bits. -/
theorem bspline_maximal_fp_asymmetric :
    bspline_maximal_fp_entry (fun i => if i = 0 then 1 + 1 / 2 ^ 52 else 3)
        (1 + 1 / 2 ^ 52) 0 1 = 3 + 6 / 2 ^ 52 ∧
    bspline_maximal_fp_entry (fun i => if i = 0 then 1 + 1 / 2 ^ 52 else 3)
        (1 + 1 / 2 ^ 52) 1 0 = 3 + 8 / 2 ^ 52 ∧
    bspline_maximal_fp_entry (fun i => if i = 0 then 1 + 1 / 2 ^ 52 else 3)
        (1 + 1 / 2 ^ 52) 0 1 ≠
      bspline_maximal_fp_entry (fun i => if i = 0 then 1 + 1 / 2 ^ 52 else 3)
        (1 + 1 / 2 ^ 52) 1 0 := by
  have hA : fl64 ((1 + 1 / 2 ^ 52) * (1 + 1 / 2 ^ 52)) = 1 + 2 / 2 ^ 52 := by
    apply fl64_eval _ _ 0 (by norm_num) (by norm_num) (by norm_num)
    have hf : ⌊((1 + 1 / 2 ^ 52 : ℚ) * (1 + 1 / 2 ^ 52)) / (2 : ℚ) ^ ((0 : ℤ) - 52)⌋ =
        4503599627370498 := by
      rw [Int.floor_eq_iff]
      norm_num
    rw [roundEven, hf]
    norm_num
  have hB : fl64 ((1 + 2 / 2 ^ 52) * 3) = 3 + 6 / 2 ^ 52 := by
    apply fl64_eval _ _ 1 (by norm_num) (by norm_num) (by norm_num)
    have hf : ⌊((1 + 2 / 2 ^ 52 : ℚ) * 3) / (2 : ℚ) ^ ((1 : ℤ) - 52)⌋ =
        6755399441055747 := by
      rw [Int.floor_eq_iff]
      norm_num
    rw [roundEven, hf]
    norm_num
  have hC : fl64 (3 * (1 + 1 / 2 ^ 52)) = 3 + 4 / 2 ^ 52 := by
    apply fl64_eval _ _ 1 (by norm_num) (by norm_num) (by norm_num)
    have hf : ⌊(3 * (1 + 1 / 2 ^ 52 : ℚ)) / (2 : ℚ) ^ ((1 : ℤ) - 52)⌋ =
        6755399441055745 := by
      rw [Int.floor_eq_iff]
      norm_num
    rw [roundEven, hf]
    norm_num
  have hD : fl64 ((3 + 4 / 2 ^ 52) * (1 + 1 / 2 ^ 52)) = 3 + 8 / 2 ^ 52 := by
    apply fl64_eval _ _ 1 (by norm_num) (by norm_num) (by norm_num)
    have hf : ⌊((3 + 4 / 2 ^ 52 : ℚ) * (1 + 1 / 2 ^ 52)) / (2 : ℚ) ^ ((1 : ℤ) - 52)⌋ =
        6755399441055747 := by
      rw [Int.floor_eq_iff]
      norm_num
    rw [roundEven, hf]
    norm_num
  have h01 : bspline_maximal_fp_entry (fun i => if i = 0 then 1 + 1 / 2 ^ 52 else 3)
      (1 + 1 / 2 ^ 52) 0 1 = 3 + 6 / 2 ^ 52 := by
    show fl64 (fl64 ((1 + 1 / 2 ^ 52) * (1 + 1 / 2 ^ 52)) * 3) = 3 + 6 / 2 ^ 52
    rw [hA, hB]
  have h10 : bspline_maximal_fp_entry (fun i => if i = 0 then 1 + 1 / 2 ^ 52 else 3)
      (1 + 1 / 2 ^ 52) 1 0 = 3 + 8 / 2 ^ 52 := by
    show fl64 (fl64 (3 * (1 + 1 / 2 ^ 52)) * (1 + 1 / 2 ^ 52)) = 3 + 8 / 2 ^ 52
    rw [hC, hD]
  refine ⟨h01, h10, ?_⟩
  rw [h01, h10]
  norm_num

/-- C1 (amended): for every basis and every regularization the matrix
returned by `penalty_matrix` satisfies R i j = R j i exactly in the exact
(real-number) semantics of the embedding.  The numerical, monomial and
general B-spline paths obtain this by copying the computed upper triangle
into the lower one, and the constant and Fourier paths by symmetric
construction; the B-spline maximal-derivative path instead forms the whole
matrix as the product constants.T @ diag(interval lengths) @ constants,
which is symmetric here because multiplication of the exact scalars
commutes — by algebra, not by copying, so only for that path the bit-for-bit
strengthening fails (see the counterexample above). -/
theorem penalty_matrix_symmetric (basis : Basis) (reg : Regularization) (i j : ℕ) :
    (penalty_matrix basis reg).entry i j = (penalty_matrix basis reg).entry j i := by
  unfold penalty_matrix
  cases hopt : penalty_matrix_optimized basis reg with
  | none => exact penalty_matrix_numerical_symm reg basis i j
  | some M => exact penalty_matrix_optimized_symm basis reg M hopt i j

/-- C2: `penalty_matrix` always returns a matrix.  When the registered
optimizer declines with the not-applicable sentinel (`none`, the embedding
of `NotImplemented`), and when no optimizer is registered for the variant
(the `other` variant), the numerical fallback is used; when the optimizer
returns a matrix, that matrix is returned unchanged, so the sentinel never
escapes to the caller. -/
theorem penalty_matrix_total_fallback (basis : Basis) (reg : Regularization) :
    (penalty_matrix_optimized basis reg = none →
      penalty_matrix basis reg = penalty_matrix_numerical reg basis) ∧
    (∀ M, penalty_matrix_optimized basis reg = some M → penalty_matrix basis reg = M) ∧
    (∀ a b n funs, basis = Basis.other a b n funs →
      penalty_matrix basis reg = penalty_matrix_numerical reg basis) := by
  refine ⟨?_, ?_, ?_⟩
  · intro h
    unfold penalty_matrix
    rw [h]
  · intro M h
    unfold penalty_matrix
    rw [h]
  · intro a b n funs h
    subst h
    unfold penalty_matrix
    rfl

/-- Witness for C2: a basis variant with no registered optimizer gets the
sentinel from the dispatch and the numerical fallback from
`penalty_matrix`. -/
theorem penalty_matrix_total_fallback_witness :
    penalty_matrix_optimized (Basis.other 0 1 1 (fun _ _ => 1)) (constOpReg [1]) = none ∧
    penalty_matrix (Basis.other 0 1 1 (fun _ _ => 1)) (constOpReg [1]) =
      penalty_matrix_numerical (constOpReg [1]) (Basis.other 0 1 1 (fun _ _ => 1)) :=
  ⟨rfl, (penalty_matrix_total_fallback (Basis.other 0 1 1 (fun _ _ => 1)) (constOpReg [1])).1 rfl⟩

/-- C4: for every constant basis on [a, b] and every operator with constant
weights w, `penalty_matrix` routes to the constant optimizer and returns the
1×1 matrix [[w_0 ^ 2 * (b - a)]]. -/
theorem constant_penalty_matrix_closed_form (a b : ℝ) (w : List ℝ) (reg : Regularization)
    (hw : reg.linear_diff_op.constant_weights = some w) :
    (penalty_matrix (Basis.constant a b) reg).size = 1 ∧
    (penalty_matrix (Basis.constant a b) reg).entry 0 0 = w.getD 0 0 ^ 2 * (b - a) := by
  constructor
  · simp [penalty_matrix, penalty_matrix_optimized, constant_penalty_matrix_optimized, hw]
  · simp [penalty_matrix, penalty_matrix_optimized, constant_penalty_matrix_optimized, hw]

/-- Witness for C4: for domain [0, 1] and single weight w_0 = 2 the result
is [[4.0]]. -/
theorem constant_penalty_matrix_closed_form_witness :
    (constOpReg [2]).linear_diff_op.constant_weights = some [2] ∧
    (penalty_matrix (Basis.constant 0 1) (constOpReg [2])).size = 1 ∧
    (penalty_matrix (Basis.constant 0 1) (constOpReg [2])).entry 0 0 = 4 := by
  have h := constant_penalty_matrix_closed_form 0 1 [2] (constOpReg [2]) rfl
  refine ⟨rfl, h.1, ?_⟩
  rw [h.2]
  norm_num

/-- C6: for every Fourier basis with constant weights and period equal to
the domain length, the optimized Fourier path accepts and the matrix it
returns has every off-diagonal entry exactly 0 and entry (0, 0) equal to
the square of the zeroth operator weight. -/
theorem fourier_diagonal_only (a b period : ℝ) (n : ℕ) (w : List ℝ) (reg : Regularization)
    (hw : reg.linear_diff_op.constant_weights = some w) (hp : period = b - a) :
    penalty_matrix_optimized (Basis.fourier a b n period) reg =
      some (_fourier_penalty_matrix_optimized_orthonormal n period w) ∧
    (∀ i j, i ≠ j →
      (_fourier_penalty_matrix_optimized_orthonormal n period w).entry i j = 0) ∧
    (_fourier_penalty_matrix_optimized_orthonormal n period w).entry 0 0 = w.getD 0 0 ^ 2 := by
  refine ⟨?_, ?_, ?_⟩
  · simp [penalty_matrix_optimized, fourier_penalty_matrix_optimized, hw, hp]
  · intro i j hij
    have h1 : ¬(i = 0 ∧ j = 0) := fun h => hij (h.1.trans h.2.symm)
    have h2 : ¬(i = j ∧ i - 1 < 2 * ((n - 1) / 2)) := fun h => hij h.1
    simp only [_fourier_penalty_matrix_optimized_orthonormal]
    rw [if_neg h1, if_neg h2]
  · simp [_fourier_penalty_matrix_optimized_orthonormal]

/-- Witness for C6: a Fourier basis with n_basis = 4, period 1 on [0, 1] and
weights [3]: the dispatch accepts, an off-diagonal entry is 0, and the
(0, 0) entry is 3 ^ 2 = 9. -/
theorem fourier_diagonal_only_witness :
    (1 : ℝ) = 1 - 0 ∧
    (_fourier_penalty_matrix_optimized_orthonormal 4 1 [3]).entry 1 2 = 0 ∧
    (_fourier_penalty_matrix_optimized_orthonormal 4 1 [3]).entry 0 0 = 9 := by
  have h := fourier_diagonal_only 0 1 1 4 [3] (constOpReg [3]) rfl (by norm_num)
  refine ⟨by norm_num, h.2.1 1 2 (by norm_num), ?_⟩
  rw [h.2.2]
  norm_num

/-- C7: given constant weights, the optimized Fourier path returns the
not-applicable sentinel exactly when the period differs from the domain
length b - a, and returns a matrix when they are equal. -/
theorem fourier_declines_iff_period_mismatch (a b period : ℝ) (n : ℕ) (w : List ℝ)
    (reg : Regularization) (hw : reg.linear_diff_op.constant_weights = some w) :
    (fourier_penalty_matrix_optimized a b n period reg = none ↔ period ≠ b - a) ∧
    (period = b - a → fourier_penalty_matrix_optimized a b n period reg =
      some (_fourier_penalty_matrix_optimized_orthonormal n period w)) := by
  simp only [fourier_penalty_matrix_optimized, hw]
  constructor
  · by_cases hp : period = b - a <;> simp [hp]
  · intro hp
    simp [hp]

/-- Witness for C7: period 2 on domain [0, 1] is declined; period 1 is
accepted. -/
theorem fourier_declines_iff_period_mismatch_witness :
    fourier_penalty_matrix_optimized 0 1 5 2 (constOpReg [1]) = none ∧
    fourier_penalty_matrix_optimized 0 1 5 1 (constOpReg [1]) =
      some (_fourier_penalty_matrix_optimized_orthonormal 5 1 [1]) :=
  ⟨(fourier_declines_iff_period_mismatch 0 1 2 5 [1] (constOpReg [1]) rfl).1.mpr (by norm_num),
   (fourier_declines_iff_period_mismatch 0 1 1 5 [1] (constOpReg [1]) rfl).2 (by norm_num)⟩

/-- C10: for every Fourier basis the optimized path accepts, the returned
matrix is square of size 2 * ((n_basis - 1) / 2) + 1; this equals n_basis
exactly when n_basis is odd, and for an even positive n_basis it is
n_basis - 1. -/
theorem fourier_matrix_size (a b period : ℝ) (n : ℕ) (w : List ℝ) (reg : Regularization)
    (hw : reg.linear_diff_op.constant_weights = some w) (hp : period = b - a) :
    (fourier_penalty_matrix_optimized a b n period reg).map Mat.size =
      some (2 * ((n - 1) / 2) + 1) ∧
    (n % 2 = 1 →
      (fourier_penalty_matrix_optimized a b n period reg).map Mat.size = some n) ∧
    (n % 2 = 0 → 0 < n →
      (fourier_penalty_matrix_optimized a b n period reg).map Mat.size = some (n - 1)) := by
  have hbase : (fourier_penalty_matrix_optimized a b n period reg).map Mat.size =
      some (2 * ((n - 1) / 2) + 1) := by
    simp [fourier_penalty_matrix_optimized, hw, hp,
      _fourier_penalty_matrix_optimized_orthonormal]
  refine ⟨hbase, ?_, ?_⟩
  · intro hodd
    rw [hbase]
    congr 1
    omega
  · intro heven hpos
    rw [hbase]
    congr 1
    omega

/-- Witness for C10: an even-dimension Fourier basis (n_basis = 4) yields a
3×3 matrix, not a 4×4 one. -/
theorem fourier_matrix_size_witness :
    (1 : ℝ) = 1 - 0 ∧
    (fourier_penalty_matrix_optimized 0 1 4 1 (constOpReg [1])).map Mat.size = some 3 := by
  have h := fourier_matrix_size 0 1 1 4 [1] (constOpReg [1]) rfl (by norm_num)
  refine ⟨by norm_num, ?_⟩
  have h3 := h.2.2 (by norm_num) (by norm_num)
  simpa using h3

/-- C8: for every B-spline basis with constant weights in which every
nonzero weight sits at a derivative order at or above the spline order, the
optimized B-spline path returns the exact n×n zero matrix. -/
theorem bspline_zero_matrix_high_derivative (n order : ℕ) (knots : List ℝ)
    (derivEval : ℕ → ℝ → ℕ → ℝ) (ppoly : ℕ → ℕ → List ℝ) (w : List ℝ)
    (reg : Regularization) (hw : reg.linear_diff_op.constant_weights = some w)
    (hz : ∀ k, k < w.length → w.getD k 0 ≠ 0 → order ≤ k) :
    bspline_penalty_matrix_optimized n order knots derivEval ppoly reg =
      some ⟨n, fun _ _ => 0⟩ := by
  have hnz : bspline_nonzero w order = [] := by
    unfold bspline_nonzero
    rw [List.filter_eq_nil_iff]
    intro k hk
    simp only [List.mem_range] at hk
    simp only [decide_eq_true_eq, not_and]
    intro hne
    have := hz k hk hne
    omega
  simp [bspline_penalty_matrix_optimized, hw, hnz]

/-- Witness for C8: a spline of order 2 with the only nonzero weight at
derivative order 2 gives the 3×3 zero matrix. -/
theorem bspline_zero_matrix_high_derivative_witness :
    (∀ k, k < ([0, 0, (5 : ℝ)]).length → ([0, 0, (5 : ℝ)]).getD k 0 ≠ 0 → 2 ≤ k) ∧
    bspline_penalty_matrix_optimized 3 2 [0, 1] (fun _ _ _ => 0) (fun _ _ => [])
      (constOpReg [0, 0, 5]) = some ⟨3, fun _ _ => 0⟩ := by
  have hz : ∀ k, k < ([0, 0, (5 : ℝ)]).length → ([0, 0, (5 : ℝ)]).getD k 0 ≠ 0 → 2 ≤ k := by
    intro k hk hne
    simp only [List.length_cons, List.length_nil] at hk
    interval_cases k <;> simp_all
  exact ⟨hz, bspline_zero_matrix_high_derivative 3 2 [0, 1] (fun _ _ _ => 0) (fun _ _ => [])
    [0, 0, 5] (constOpReg [0, 0, 5]) rfl hz⟩

/-- C9: the optimized B-spline path returns the not-applicable sentinel
(never an exception: in this embedding it is a total function into
`Option`) when more than one nonzero weight below the spline order survives
the filtering, and, in the general case (surviving derivative order
strictly below order - 1), when some knot interval has zero length. -/
theorem bspline_declines (n order : ℕ) (knots : List ℝ) (derivEval : ℕ → ℝ → ℕ → ℝ)
    (ppoly : ℕ → ℕ → List ℝ) (w : List ℝ) (reg : Regularization)
    (hw : reg.linear_diff_op.constant_weights = some w) :
    (2 ≤ (bspline_nonzero w order).length →
      bspline_penalty_matrix_optimized n order knots derivEval ppoly reg = none) ∧
    (∀ d, bspline_nonzero w order = [d] → d < order - 1 →
      (∃ k, k + 1 < knots.length ∧ knots.getD (k + 1) 0 - knots.getD k 0 = 0) →
      bspline_penalty_matrix_optimized n order knots derivEval ppoly reg = none) := by
  constructor
  · intro h2
    simp only [bspline_penalty_matrix_optimized, hw]
    rw [if_neg (by omega), if_pos (by omega)]
  · intro d hnz hd hex
    simp only [bspline_penalty_matrix_optimized, hw, hnz]
    rw [if_neg (by simp), if_neg (by simp)]
    simp only [List.headD_cons]
    rw [if_neg (by omega), if_pos hex]

/-- Witness for C9: weights [1, 1] with order 3 leave two surviving
derivative orders and are declined; weights [1] (derivative order 0, below
order - 1 = 2) with the degenerate knot vector [0, 0, 1] are declined in
the general case. -/
theorem bspline_declines_witness :
    bspline_penalty_matrix_optimized 2 3 [0, 1] (fun _ _ _ => 0) (fun _ _ => [])
      (constOpReg [1, 1]) = none ∧
    bspline_penalty_matrix_optimized 2 3 [0, 0, 1] (fun _ _ _ => 0) (fun _ _ => [])
      (constOpReg [1]) = none := by
  constructor
  · refine (bspline_declines 2 3 [0, 1] (fun _ _ _ => 0) (fun _ _ => [])
      [1, 1] (constOpReg [1, 1]) rfl).1 ?_
    have hnz : bspline_nonzero [1, 1] 3 = [0, 1] := by
      simp [bspline_nonzero, List.range_succ, List.filter_append]
    rw [hnz]
    simp
  · refine (bspline_declines 2 3 [0, 0, 1] (fun _ _ _ => 0) (fun _ _ => [])
      [1] (constOpReg [1]) rfl).2 0 ?_ (by omega) ⟨0, by simp, by simp⟩
    simp [bspline_nonzero, List.range_succ, List.filter_append]

/-- C3 (code bug): the optimized B-spline path drops the surviving operator
weight.  For the order-1 B-spline basis on [0, 1] with knots [0, 1] (its one
basis function is the constant 1, its 0-th derivative evaluates to 1
everywhere) and the operator with constant weights [2], the dispatch takes
the maximal-derivative product path and returns entry (0, 0) = 1, while the
fallback — which implements the documented definition
R = integral of (L phi) * (L phi) with L phi = 2 — returns 4 = 2^2 * (1-0):
the optimized result misses the factor w_d^2, so it does not match the
fallback even up to quadrature tolerance. -/
theorem bspline_weight_dropped_bug :
    (penalty_matrix
        (Basis.bspline 0 1 1 1 [0, 1] (fun _ _ _ => 1) (fun _ _ => [1]) (fun _ _ => 1))
        (constOpReg [2])).entry 0 0 = 1 ∧
    (penalty_matrix_numerical (constOpReg [2])
        (Basis.bspline 0 1 1 1 [0, 1] (fun _ _ _ => 1) (fun _ _ => [1]) (fun _ _ => 1))).entry 0 0
      = 4 := by
  constructor
  · have hnz : bspline_nonzero [2] 1 = [0] := by
      simp [bspline_nonzero, List.range_succ]
    simp [penalty_matrix, penalty_matrix_optimized, bspline_penalty_matrix_optimized,
      constOpReg, hnz, Finset.sum_range_one]
  · have hcross : ∀ x : ℝ, cross_product (constOpReg [2])
        (Basis.bspline 0 1 1 1 [0, 1] (fun _ _ _ => 1) (fun _ _ => [1]) (fun _ _ => 1))
        0 0 x = 4 := by
      intro x
      simp [cross_product, constOpReg, applyConstantOp, Basis.funs, Finset.sum_range_one,
        iteratedDeriv_zero]
      norm_num
    simp only [penalty_matrix_numerical]
    rw [if_pos (le_refl 0)]
    simp only [Basis.domain_left, Basis.domain_right, hcross]
    rw [intervalIntegral.integral_const]
    norm_num

set_option maxHeartbeats 1600000 in
/-- C5: for the monomial basis {1, x, x^2} on [0, 1] with the
second-derivative operator (constant weights [0, 0, 1]), the dispatch takes
the optimized monomial path and returns the 3×3 matrix whose only nonzero
entry is R[2][2] = 4. -/
theorem monomial_worked_example :
    penalty_matrix_optimized (Basis.monomial 0 1 3) (constOpReg [0, 0, 1]) =
      some (penalty_matrix (Basis.monomial 0 1 3) (constOpReg [0, 0, 1])) ∧
    (penalty_matrix (Basis.monomial 0 1 3) (constOpReg [0, 0, 1])).size = 3 ∧
    (penalty_matrix (Basis.monomial 0 1 3) (constOpReg [0, 0, 1])).entry 2 2 = 4 ∧
    (penalty_matrix (Basis.monomial 0 1 3) (constOpReg [0, 0, 1])).entry 0 0 = 0 ∧
    (penalty_matrix (Basis.monomial 0 1 3) (constOpReg [0, 0, 1])).entry 0 1 = 0 ∧
    (penalty_matrix (Basis.monomial 0 1 3) (constOpReg [0, 0, 1])).entry 0 2 = 0 ∧
    (penalty_matrix (Basis.monomial 0 1 3) (constOpReg [0, 0, 1])).entry 1 0 = 0 ∧
    (penalty_matrix (Basis.monomial 0 1 3) (constOpReg [0, 0, 1])).entry 1 1 = 0 ∧
    (penalty_matrix (Basis.monomial 0 1 3) (constOpReg [0, 0, 1])).entry 1 2 = 0 ∧
    (penalty_matrix (Basis.monomial 0 1 3) (constOpReg [0, 0, 1])).entry 2 0 = 0 ∧
    (penalty_matrix (Basis.monomial 0 1 3) (constOpReg [0, 0, 1])).entry 2 1 = 0 := by
  have hM : penalty_matrix (Basis.monomial 0 1 3) (constOpReg [0, 0, 1]) =
      ⟨3, fun i j =>
        if i < 3 ∧ j < 3 then
          if i ≤ j then monomial_integral 0 1 3 [0, 0, 1] i j
          else monomial_integral 0 1 3 [0, 0, 1] j i
        else 0⟩ := rfl
  have h00 : monomial_integral 0 1 3 [0, 0, 1] 0 0 = 0 := by
    norm_num [monomial_integral, monomial_integrand_list, monomial_integrand,
      monomial_integrand_raw, monomial_polynomials, fallingCoef, polyval,
      List.range_succ, Finset.sum_range_succ, Finset.prod_range_succ]
  have h01 : monomial_integral 0 1 3 [0, 0, 1] 0 1 = 0 := by
    norm_num [monomial_integral, monomial_integrand_list, monomial_integrand,
      monomial_integrand_raw, monomial_polynomials, fallingCoef, polyval,
      List.range_succ, Finset.sum_range_succ, Finset.prod_range_succ]
  have h02 : monomial_integral 0 1 3 [0, 0, 1] 0 2 = 0 := by
    norm_num [monomial_integral, monomial_integrand_list, monomial_integrand,
      monomial_integrand_raw, monomial_polynomials, fallingCoef, polyval,
      List.range_succ, Finset.sum_range_succ, Finset.prod_range_succ]
  have h11 : monomial_integral 0 1 3 [0, 0, 1] 1 1 = 0 := by
    norm_num [monomial_integral, monomial_integrand_list, monomial_integrand,
      monomial_integrand_raw, monomial_polynomials, fallingCoef, polyval,
      List.range_succ, Finset.sum_range_succ, Finset.prod_range_succ]
  have h12 : monomial_integral 0 1 3 [0, 0, 1] 1 2 = 0 := by
    norm_num [monomial_integral, monomial_integrand_list, monomial_integrand,
      monomial_integrand_raw, monomial_polynomials, fallingCoef, polyval,
      List.range_succ, Finset.sum_range_succ, Finset.prod_range_succ]
  have h22 : monomial_integral 0 1 3 [0, 0, 1] 2 2 = 4 := by
    norm_num [monomial_integral, monomial_integrand_list, monomial_integrand,
      monomial_integrand_raw, monomial_polynomials, fallingCoef, polyval,
      List.range_succ, Finset.sum_range_succ, Finset.prod_range_succ]
  refine ⟨rfl, by rw [hM], ?_, ?_, ?_, ?_, ?_, ?_, ?_, ?_, ?_⟩ <;>
    (rw [hM]; dsimp only; norm_num [h00, h01, h02, h11, h12, h22])

end Skfda
